import Mathlib

/-!
Shallow embedding of the exemplar-memory / incremental-learning core of
`inclearn` (files `inclearn/models/icarl.py` and `inclearn/lib/utils.py`),
together with theorems settling the specification claims about it.

Tensors are embedded as lists of rationals (a matrix is a list of rows).
The only genuinely external numeric primitive, the floating-point square
root used by `torch.norm` / `F.normalize`, is a parameter (`NumKernel`);
every theorem quantifies over it, so the results hold for whatever square
root the real library computes.  IEEE special values (NaN, infinities),
which matter for the loss check and for the division by an empty exemplar
count, are embedded by the type `FVal`.
-/

namespace ICarl

/-- The external scalar square-root routine (`torch`'s float `sqrt`),
left abstract: results are proved for every choice of it. -/
structure NumKernel where
  sqrt : ℚ → ℚ

/-- A concrete kernel used only to instantiate witnesses; the statements
instantiated with it do not depend on the value of `sqrt` there. -/
def qKernel : NumKernel := ⟨fun q => q⟩

/-- `eps` of `F.normalize` (default `1e-12`). -/
def qeps : ℚ := 1 / 1000000000000

def sumSq (v : List ℚ) : ℚ := (v.map fun x => x * x).sum

def addVec (a b : List ℚ) : List ℚ := List.zipWith (· + ·) a b

def subVec (a b : List ℚ) : List ℚ := List.zipWith (· - ·) a b

/-- `F.normalize(v, dim=0)` for a 1-D tensor: divide by `max(‖v‖, eps)`. -/
def normalizeVec (κ : NumKernel) (v : List ℚ) : List ℚ :=
  v.map (· / max (κ.sqrt (sumSq v)) qeps)

/-- Sum of squares of column `c` over all rows. -/
def colSumSq (rows : List (List ℚ)) (c : Nat) : ℚ :=
  (rows.map fun r => r.getD c 0 * r.getD c 0).sum

/-- `F.normalize(matrix, dim=0)`: each entry divided by (the clamped norm
of) its column. -/
def normalizeCols (κ : NumKernel) (rows : List (List ℚ)) : List (List ℚ) :=
  rows.map fun r =>
    (List.range r.length).map fun c => r.getD c 0 / max (κ.sqrt (colSumSq rows c)) qeps

/-- `torch.mean(features, dim=0)` for a matrix of `rows.length` rows of
width `d` (`_extract_features`). -/
def colMean (rows : List (List ℚ)) (d : Nat) : List ℚ :=
  (List.range d).map fun c => (rows.map fun r => r.getD c 0).sum / (rows.length : ℚ)

/-- `ICarl._dist`: squared Euclidean distance, summed over the last
dimension. -/
def dist (a b : List ℚ) : ℚ :=
  (List.zipWith (fun x y => (x - y) * (x - y)) a b).sum

/-- Minimum value of a list (`torch.min` over a non-empty tensor). -/
def listMin : List ℚ → ℚ
  | [] => 0
  | [x] => x
  | x :: y :: r => min x (listMin (y :: r))

/-- `tensor.argmin()`: index of the first minimal entry. -/
def argmin : List ℚ → Nat
  | [] => 0
  | [_] => 0
  | x :: y :: r => if x ≤ listMin (y :: r) then 0 else argmin (y :: r) + 1

/-- `ICarl._get_closest`: for every feature row, the index of the closest
center. -/
def get_closest (centers : List (List ℚ)) (features : List (List ℚ)) : List Nat :=
  features.map fun f => argmin (centers.map fun c => dist c f)

/-- The two failure cases of `ICarl._classify` (two distinct `raise`
sites, distinguished by their messages). -/
inductive ClassifyError where
  | uninitializedClassifierState : ClassifyError
  | classMeanCountMismatch : Nat → Nat → ClassifyError
  deriving DecidableEq, Repr

/-- `ICarl._classify`: fail when no means were built or their count is
wrong; otherwise normalize the extracted features and take the nearest
mean. -/
def classify (κ : NumKernel) (means : Option (List (List ℚ))) (n_classes : Nat)
    (features : List (List ℚ)) : Except ClassifyError (List Nat) :=
  match means with
  | none => .error .uninitializedClassifierState
  | some ms =>
    if ms.length ≠ n_classes then
      .error (.classMeanCountMismatch ms.length n_classes)
    else
      .ok (get_closest ms (features.map (normalizeVec κ)))

/-- An IEEE-style scalar value: finite rational, infinities, or NaN.
Used where the code's float semantics for NaN/∞ are what a claim is
about (`_check_loss`, division by a zero exemplar count). -/
inductive FVal where
  | fin : ℚ → FVal
  | posInf : FVal
  | negInf : FVal
  | nan : FVal
  deriving DecidableEq, Repr

/-- `torch.isnan`. -/
def FVal.isnan : FVal → Bool
  | .nan => true
  | _ => false

/-- IEEE comparison `loss >= 0.` (false on NaN). -/
def FVal.ge_zero : FVal → Bool
  | .fin q => decide (0 ≤ q)
  | .posInf => true
  | .negInf => false
  | .nan => false

def FVal.isFinite : FVal → Bool
  | .fin _ => true
  | _ => false

/-- `utils._check_loss`: `not isnan(loss) and loss >= 0.`. -/
def check_loss (l : FVal) : Bool :=
  !l.isnan && l.ge_zero

/-- The externally observable actions `_train_task` performs on one
mini-batch after computing the two losses (lines 104-110 of
`icarl.py`): an interactive debugger trap when the check fails, then
unconditionally backprop and an optimizer step. -/
inductive BatchEvent where
  | pdbTrace : BatchEvent
  | optimizerStep : BatchEvent
  deriving DecidableEq, Repr

/-- The sequence of observable actions `_train_task` takes on a batch
with the given loss values.  No exception is ever raised: the only
possible events are the debugger trap and the optimizer step. -/
def trainBatchEvents (clf_loss distil_loss : FVal) : List BatchEvent :=
  (if !check_loss clf_loss || !check_loss distil_loss then [BatchEvent.pdbTrace] else [])
    ++ [BatchEvent.optimizerStep]

/-- `utils.to_onehot`. -/
def to_onehot (targets : List Nat) (n_classes : Nat) : List (List ℚ) :=
  targets.map fun t => (List.range n_classes).map fun j => if j = t then 1 else 0

/-- `F.binary_cross_entropy_with_logits` with mean reduction, its scalar
kernel `ℓ` (an external numeric routine) left abstract: the mean of `ℓ`
over all (logit, target) entry pairs. -/
def bce_mean (ℓ : ℚ → ℚ → ℚ) (logits targets : List (List ℚ)) : ℚ :=
  let entries := (List.zipWith (fun lr tr => List.zipWith ℓ lr tr) logits targets).flatten
  entries.sum / (entries.length : ℚ)

/-- `ICarl._compute_loss`.  For the first task: classification loss over
all columns, distillation loss `torch.zeros(1)`.  Afterwards: the logit
columns are split at `new_task_index`; the old columns are trained
against the cached previous predictions looked up by sample index. -/
def compute_loss (ℓ : ℚ → ℚ → ℚ) (task new_task_index : Nat)
    (logits targets prev_preds : List (List ℚ)) (idxes : List Nat) : ℚ × ℚ :=
  if task = 0 then
    (bce_mean ℓ logits targets, 0)
  else
    (bce_mean ℓ (logits.map (List.drop new_task_index)) (targets.map (List.drop new_task_index)),
     bce_mean ℓ (logits.map (List.take new_task_index)) (idxes.map fun i => prev_preds.getD i []))

/-- A linear head: weight rows plus an optional bias vector. -/
structure LinearHead where
  weight : List (List ℚ)
  bias : Option (List ℚ)
  deriving DecidableEq, Repr

/-- Tensor slice assignment `dst[: src.length] = src` on rows. -/
def slice_assign_rows (dst src : List (List ℚ)) : List (List ℚ) :=
  src ++ dst.drop src.length

/-- `ICarl._add_n_classes`: build a fresh bias-free head (`fresh_weight`
is its Kaiming-normal initialization, an external random draw) and copy
the old rows over its first `old_weight.length` rows. -/
def add_n_classes (old_weight fresh_weight : List (List ℚ)) : LinearHead :=
  { weight := slice_assign_rows fresh_weight old_weight, bias := none }

/-- `ICarl._m`: the per-class exemplar quota `memory_size // n_classes`. -/
def quota_m (k n_classes : Nat) : Nat := k / n_classes

/-- `ICarl._n_classes` after `_before_task` ran for the given task
(`_add_n_classes` is invoked only for tasks after the first). -/
def before_task_n_classes (task n_classes task_size : Nat) : Nat :=
  if task = 0 then n_classes else n_classes + task_size

/-- `ICarl._reduce_examplars`: truncate every known class's exemplar
list to its first `m` entries. -/
def reduce_examplars (m : Nat) (examplars : List (List Nat)) : List (List Nat) :=
  examplars.map (List.take m)

/-- State of the herding loop in `_build_examplars`: the chosen
identifiers (`examplars_idxes`) and the running sum of chosen feature
rows (`examplars_mean`). -/
structure HerdState where
  selected : List Nat
  meanSum : List ℚ
  deriving DecidableEq, Repr

/-- The inner `for idx in idxes_winner` loop: scan the sorted positions,
skip positions whose identifier was already chosen, return the first
fresh one (or `none` when every identifier is already chosen). -/
def pickFirst (idxes selected : List Nat) : List Nat → Option Nat
  | [] => none
  | pos :: rest =>
    if idxes.getD pos 0 ∈ selected then pickFirst idxes selected rest else some pos

/-- Insert position `p` into an ascending run of positions, after all
positions of equal key (the stable tie behaviour of a stable ascending
sort). -/
def insertPos (vals : List ℚ) (p : Nat) : List Nat → List Nat
  | [] => [p]
  | q :: rest =>
    if vals.getD p 0 < vals.getD q 0 then p :: q :: rest else q :: insertPos vals p rest

/-- `tensor.argsort()` (ascending), embedded as a stable insertion sort
of the positions `0, …, n-1` by their values. -/
def argsort (vals : List ℚ) : List Nat :=
  (List.range vals.length).foldl (fun acc p => insertPos vals p acc) []

/-- The candidate ranking of herding iteration `i`:
`distances = (class_mean - F.normalize((features + examplars_mean) / (i+1), dim=0)).norm(2, 1)`. -/
def herd_distances (κ : NumKernel) (class_mean : List ℚ) (features : List (List ℚ))
    (meanSum : List ℚ) (i : Nat) : List ℚ :=
  let tmp := normalizeCols κ (features.map fun row => (addVec row meanSum).map (· / ((i : ℚ) + 1)))
  tmp.map fun row => κ.sqrt (sumSq (subVec class_mean row))

/-- One iteration of the herding loop body. -/
def herd_step (κ : NumKernel) (class_mean : List ℚ) (features : List (List ℚ))
    (idxes : List Nat) (i : Nat) (st : HerdState) : HerdState :=
  match pickFirst idxes st.selected (argsort (herd_distances κ class_mean features st.meanSum i)) with
  | some pos => ⟨st.selected ++ [idxes.getD pos 0], addVec st.meanSum (features.getD pos [])⟩
  | none => st

/-- The herding loop `for i in range(min(self._m, features.shape[0]))`,
started from an empty selection and `examplars_mean = torch.zeros(d)`. -/
def herd_loop (κ : NumKernel) (d : Nat) (class_mean : List ℚ) (features : List (List ℚ))
    (idxes : List Nat) (m : Nat) : HerdState :=
  (List.range (min m features.length)).foldl
    (fun st i => herd_step κ class_mean features idxes i st) ⟨[], List.replicate d 0⟩

/-- The per-new-class body of `_build_examplars`: normalized candidate
mean, then the herding loop. -/
def build_class_examplars (κ : NumKernel) (d m : Nat) (features : List (List ℚ))
    (idxes : List Nat) : HerdState :=
  herd_loop κ d (normalizeVec κ (colMean features d)) features idxes m

/-- `examplars_mean / len(examplars_idxes)` with IEEE division: each
entry of the running sum divided by the number of chosen exemplars
(`0 / 0 = NaN` when nothing was chosen). -/
def classMeanRaw (st : HerdState) : List FVal :=
  st.meanSum.map fun q =>
    if st.selected.length = 0 then
      (if q = 0 then FVal.nan else if 0 < q then FVal.posInf else FVal.negInf)
    else FVal.fin (q / (st.selected.length : ℚ))

/-- The exemplar identifier lists produced by `_build_examplars` for the
new classes: one candidate pool (features and identifiers) per class. -/
def build_examplars (κ : NumKernel) (d m : Nat)
    (pools : List (List (List ℚ) × List Nat)) : List (List Nat) :=
  pools.map fun pool => (build_class_examplars κ d m pool.1 pool.2).selected

/-- `ICarl._after_task`: reduce the known classes' exemplar lists, then
build the new classes' lists, both with quota `k / n_classes`. -/
def after_task (κ : NumKernel) (d k n_classes : Nat) (examplars : List (List Nat))
    (pools : List (List (List ℚ) × List Nat)) : List (List Nat) :=
  reduce_examplars (quota_m k n_classes) examplars
    ++ build_examplars κ d (quota_m k n_classes) pools

/-- Total number of stored exemplar identifiers over all classes. -/
def total_examplars (e : List (List Nat)) : Nat := (e.map List.length).sum

/-! ### Helper lemmas -/

theorem getD_map_of_lt {α β : Type} (f : α → β) (l : List α) (c : Nat) (db : β) (da : α)
    (h : c < l.length) : (l.map f).getD c db = f (l.getD c da) := by
  rw [List.getD_eq_getElem l da h, List.getD_eq_getElem (l.map f) db (by simpa using h),
    List.getElem_map]

theorem dist_self (a : List ℚ) : dist a a = 0 := by
  induction a with
  | nil => rfl
  | cons x t ih => simp [dist, List.zipWith] at ih ⊢

theorem dist_nonneg (a b : List ℚ) : 0 ≤ dist a b := by
  induction a generalizing b with
  | nil => simp [dist]
  | cons x t ih =>
    cases b with
    | nil => simp [dist]
    | cons y u =>
      have h1 : 0 ≤ (x - y) * (x - y) := mul_self_nonneg _
      have h2 : 0 ≤ dist t u := ih u
      simp only [dist, List.zipWith, List.sum_cons] at h2 ⊢
      linarith

theorem dist_pos (a b : List ℚ) (hlen : a.length = b.length) (hne : a ≠ b) :
    0 < dist a b := by
  induction a generalizing b with
  | nil =>
    cases b with
    | nil => exact absurd rfl hne
    | cons y u => simp at hlen
  | cons x t ih =>
    cases b with
    | nil => simp at hlen
    | cons y u =>
      simp only [List.length_cons, Nat.add_right_cancel_iff] at hlen
      by_cases hxy : x = y
      · have htu : t ≠ u := by
          intro h; exact hne (by rw [hxy, h])
        have h2 : 0 < dist t u := ih u hlen htu
        have h1 : 0 ≤ (x - y) * (x - y) := mul_self_nonneg _
        simp only [dist, List.zipWith, List.sum_cons] at h2 ⊢
        linarith
      · have h1 : 0 < (x - y) * (x - y) := by
          have hne0 : x - y ≠ 0 := sub_ne_zero_of_ne hxy
          exact mul_self_pos.mpr hne0
        have h2 : 0 ≤ dist t u := dist_nonneg t u
        simp only [dist, List.zipWith, List.sum_cons] at h2 ⊢
        linarith

theorem listMin_le (l : List ℚ) (x : ℚ) (hx : x ∈ l) : listMin l ≤ x := by
  induction l with
  | nil => simp at hx
  | cons a t ih =>
    cases t with
    | nil => simp at hx; simp [listMin, hx]
    | cons b u =>
      rcases List.mem_cons.mp hx with h | h
      · simp [listMin, h]
      · exact le_trans (min_le_right _ _) (ih h)

theorem argmin_spec (l : List ℚ) (hne : l ≠ []) :
    argmin l < l.length ∧ l.getD (argmin l) 0 = listMin l ∧
      ∀ j, j < argmin l → listMin l < l.getD j 0 := by
  induction l with
  | nil => exact absurd rfl hne
  | cons x t ih =>
    cases t with
    | nil =>
      refine ⟨by simp [argmin], by simp [argmin, listMin], ?_⟩
      intro j hj; simp [argmin] at hj
    | cons b u =>
      by_cases h : x ≤ listMin (b :: u)
      · refine ⟨by simp [argmin, h], ?_, ?_⟩
        · simp [argmin, h, listMin, min_eq_left h]
        · intro j hj; simp [argmin, h] at hj
      · obtain ⟨ih1, ih2, ih3⟩ := ih (by simp)
        have hlt : listMin (b :: u) < x := lt_of_not_le h
        have hmin : listMin (x :: b :: u) = listMin (b :: u) := by
          simp [listMin, min_eq_right (le_of_lt hlt)]
        refine ⟨?_, ?_, ?_⟩
        · simpa [argmin, h] using Nat.succ_lt_succ ih1
        · simpa [argmin, h, hmin] using ih2
        · intro j hj
          simp only [argmin, if_neg h] at hj
          cases j with
          | zero => simpa [hmin] using hlt
          | succ j' =>
            have := ih3 j' (Nat.lt_of_succ_lt_succ hj)
            simpa [hmin] using this

/-! ### Claim theorems -/

/-- Claim C3 (confirmed): at any task `t > 0`, with `n_classes` already
grown by `before_task`, the reduction step truncates every known class's
exemplar list to its first `memory_size // n_classes` entries (post-growth
`n_classes`), so its length is at most that quota. -/
theorem C3_reduction_truncates (k n0 task_size task c : Nat) (e : List (List Nat))
    (ht : 0 < task) (hc : c < e.length) :
    (reduce_examplars (quota_m k (before_task_n_classes task n0 task_size)) e).getD c []
      = (e.getD c []).take (k / (n0 + task_size)) ∧
    ((reduce_examplars (quota_m k (before_task_n_classes task n0 task_size)) e).getD c []).length
      ≤ k / (n0 + task_size) := by
  have hgrow : before_task_n_classes task n0 task_size = n0 + task_size := by
    simp [before_task_n_classes, Nat.pos_iff_ne_zero.mp ht]
  have heq : (reduce_examplars (quota_m k (before_task_n_classes task n0 task_size)) e).getD c []
      = (e.getD c []).take (k / (n0 + task_size)) := by
    rw [reduce_examplars, hgrow, quota_m]
    exact getD_map_of_lt _ e c [] [] hc
  refine ⟨heq, ?_⟩
  rw [heq]
  exact List.length_take_le _ _

/-- Witness for C3 at a concrete input. -/
theorem C3_witness :
    (reduce_examplars (quota_m 5 (before_task_n_classes 1 2 2)) [[9, 8, 7]]).getD 0 []
      = ([9, 8, 7] : List Nat).take (5 / (2 + 2)) ∧
    ((reduce_examplars (quota_m 5 (before_task_n_classes 1 2 2)) [[9, 8, 7]]).getD 0 []).length
      ≤ 5 / (2 + 2) :=
  C3_reduction_truncates 5 2 2 1 0 [[9, 8, 7]] (by decide) (by decide)

/-- Claim C5 (confirmed): growing the head keeps it bias-free, copies the
first `old_n` weight rows from the previous head unchanged, leaves the
remaining `task_size` rows at their fresh initialization, and yields
`old_n + task_size` rows. -/
theorem C5_head_growth (old_weight fresh_weight : List (List ℚ)) (old_n task_size : Nat)
    (h1 : old_weight.length = old_n) (h2 : fresh_weight.length = old_n + task_size) :
    (add_n_classes old_weight fresh_weight).bias = none ∧
    (add_n_classes old_weight fresh_weight).weight.take old_n = old_weight ∧
    (add_n_classes old_weight fresh_weight).weight.drop old_n = fresh_weight.drop old_n ∧
    (add_n_classes old_weight fresh_weight).weight.length = old_n + task_size := by
  refine ⟨rfl, ?_, ?_, ?_⟩
  · rw [add_n_classes]
    simp only [slice_assign_rows, h1]
    exact List.take_left' h1
  · rw [add_n_classes]
    simp only [slice_assign_rows, h1]
    exact List.drop_left' h1
  · rw [add_n_classes]
    simp only [slice_assign_rows, List.length_append, List.length_drop, h1, h2]
    omega

/-- Witness for C5 at a concrete input. -/
theorem C5_witness :
    (add_n_classes [[1, 2]] [[5, 5], [6, 6]]).bias = none ∧
    (add_n_classes [[1, 2]] [[5, 5], [6, 6]]).weight.take 1 = [[1, 2]] ∧
    (add_n_classes [[1, 2]] [[5, 5], [6, 6]]).weight.drop 1
      = ([[5, 5], [6, 6]] : List (List ℚ)).drop 1 ∧
    (add_n_classes [[1, 2]] [[5, 5], [6, 6]]).weight.length = 1 + 1 :=
  C5_head_growth [[1, 2]] [[5, 5], [6, 6]] 1 1 (by decide) (by decide)

/-- Claim C7 (confirmed): classification fails in exactly two situations,
each with its own error — no means built yet, or a mean count differing
from `n_classes`; otherwise it returns one prediction per input. -/
theorem C7_eval_errors (κ : NumKernel) (n : Nat) (fb : List (List ℚ)) :
    classify κ none n fb = .error .uninitializedClassifierState ∧
    (∀ ms : List (List ℚ), ms.length ≠ n →
      classify κ (some ms) n fb = .error (.classMeanCountMismatch ms.length n)) ∧
    (∀ ms : List (List ℚ), ms.length = n →
      classify κ (some ms) n fb = .ok (get_closest ms (fb.map (normalizeVec κ))) ∧
        (get_closest ms (fb.map (normalizeVec κ))).length = fb.length) := by
  refine ⟨rfl, ?_, ?_⟩
  · intro ms hne
    simp [classify, hne]
  · intro ms heq
    refine ⟨by simp [classify, heq], by simp [get_closest]⟩

/-- Witness for C7 at concrete inputs. -/
theorem C7_witness :
    classify qKernel none 1 [[0]] = .error .uninitializedClassifierState ∧
    classify qKernel (some []) 1 [[0]] = .error (.classMeanCountMismatch 0 1) ∧
    classify qKernel (some [[0]]) 1 [[0]]
      = .ok (get_closest [[0]] ([[(0 : ℚ)]].map (normalizeVec qKernel))) :=
  ⟨(C7_eval_errors qKernel 1 [[0]]).1,
   (C7_eval_errors qKernel 1 [[0]]).2.1 [] (by decide),
   ((C7_eval_errors qKernel 1 [[0]]).2.2 [[0]] (by decide)).1⟩

/-- Claim C8 (confirmed): on the first task the loss composer returns a
distillation loss exactly `0` whatever the batch, and the classification
loss is the binary cross-entropy with logits over all class columns
against the one-hot targets; the cache and sample indices are unused. -/
theorem C8_task0_loss (ℓ : ℚ → ℚ → ℚ) (new_task_index n : Nat)
    (logits prev_preds : List (List ℚ)) (labels : List Nat) (idxes : List Nat) :
    (∀ targets : List (List ℚ),
      (compute_loss ℓ 0 new_task_index logits targets prev_preds idxes).2 = 0) ∧
    compute_loss ℓ 0 new_task_index logits (to_onehot labels n) prev_preds idxes
      = (bce_mean ℓ logits (to_onehot labels n), 0) := by
  constructor
  · intro targets
    simp [compute_loss]
  · simp [compute_loss]

/-- Claim C2 (counterexample): on a batch whose classification loss is
non-finite (`+∞`, as produced by an infinite logit under binary cross
entropy), the training step raises nothing and performs the optimizer
step — the claimed `InvalidLossValue` error is never signalled. -/
theorem C2_counterexample :
    trainBatchEvents FVal.posInf (FVal.fin 0) = [BatchEvent.optimizerStep] ∧
    check_loss FVal.posInf = true := by
  decide

/-- Claim C2 (amended): the optimizer step is taken on every batch; a NaN
or negative loss only triggers an interactive debugger trap (never a
named error) before that step, and a positive-infinite loss passes
`_check_loss` entirely. -/
theorem C2_amended (c d : FVal) :
    BatchEvent.optimizerStep ∈ trainBatchEvents c d ∧
    (BatchEvent.pdbTrace ∈ trainBatchEvents c d ↔ (check_loss c && check_loss d) = false) ∧
    check_loss FVal.posInf = true ∧
    check_loss FVal.nan = false ∧
    check_loss (FVal.fin (-1)) = false := by
  refine ⟨?_, ?_, by decide, by decide, by decide⟩
  · cases hc : check_loss c <;> cases hd : check_loss d <;>
      simp [trainBatchEvents, hc, hd]
  · cases hc : check_loss c <;> cases hd : check_loss d <;>
      simp [trainBatchEvents, hc, hd]

/-- Claim C6 (confirmed): nearest-mean prediction for a query equal to the
stored mean of class `k` (all other means distinct from it) is `k`, and in
general `argmin` returns the lowest index attaining the minimum distance. -/
theorem C6_nearest_mean (centers : List (List ℚ)) (q : List ℚ) (k : Nat)
    (hk : k < centers.length)
    (hq : centers.getD k [] = q)
    (hlen : ∀ j, j < centers.length → (centers.getD j []).length = q.length)
    (hne : ∀ j, j < centers.length → j ≠ k → centers.getD j [] ≠ q) :
    get_closest centers [q] = [k] ∧
    (∀ l : List ℚ, l ≠ [] →
      argmin l < l.length ∧ l.getD (argmin l) 0 = listMin l ∧
        ∀ j, j < argmin l → listMin l < l.getD j 0) := by
  refine ⟨?_, fun l hl => argmin_spec l hl⟩
  have hcne : centers ≠ [] := by
    intro h; rw [h] at hk; simp at hk
  set D : List ℚ := centers.map fun c => dist c q with hD
  have hDlen : D.length = centers.length := by simp [hD]
  have hDne : D ≠ [] := by
    intro h
    rw [h] at hDlen
    simp at hDlen
    rw [← hDlen] at hk
    simp at hk
  have hDk : D.getD k 0 = 0 := by
    rw [hD, getD_map_of_lt _ centers k 0 [] hk, hq, dist_self]
  have hDnonneg : ∀ j, j < centers.length → 0 ≤ D.getD j 0 := by
    intro j hj
    rw [hD, getD_map_of_lt _ centers j 0 [] hj]
    exact dist_nonneg _ _
  have hDpos : ∀ j, j < centers.length → j ≠ k → 0 < D.getD j 0 := by
    intro j hj hjk
    rw [hD, getD_map_of_lt _ centers j 0 [] hj]
    exact dist_pos _ _ (hlen j hj) (hne j hj hjk)
  obtain ⟨ha1, ha2, ha3⟩ := argmin_spec D hDne
  have hmin0 : listMin D = 0 := by
    have hle : listMin D ≤ 0 := by
      rw [← hDk]
      apply listMin_le
      have hkD : k < D.length := by rw [hDlen]; exact hk
      rw [List.getD_eq_getElem D 0 hkD]
      exact List.getElem_mem hkD
    have hge : 0 ≤ listMin D := by
      rw [← ha2]
      exact hDnonneg _ (by rw [← hDlen]; exact ha1)
    linarith
  have hak : argmin D = k := by
    by_contra hakne
    have h1 : 0 < D.getD (argmin D) 0 :=
      hDpos _ (by rw [← hDlen]; exact ha1) hakne
    rw [ha2, hmin0] at h1
    exact lt_irrefl _ h1
  simp only [get_closest, List.map_cons, List.map_nil, ← hD, hak]

/-- Witness for C6 at a concrete input. -/
theorem C6_witness : get_closest [[0, 0], [1, 0]] [[(0 : ℚ), 0]] = [0] :=
  (C6_nearest_mean [[0, 0], [1, 0]] [0, 0] 0 (by decide) (by decide)
    (by intro j hj
        have hj2 : j < 2 := by simpa using hj
        interval_cases j <;> decide)
    (by intro j hj hjk
        have hj2 : j < 2 := by simpa using hj
        interval_cases j
        · exact absurd rfl hjk
        · decide)).1

theorem herd_distances_length (κ : NumKernel) (cm : List ℚ) (features : List (List ℚ))
    (ms : List ℚ) (i : Nat) :
    (herd_distances κ cm features ms i).length = features.length := by
  simp [herd_distances, normalizeCols]

theorem insertPos_perm (vals : List ℚ) (p : Nat) (l : List Nat) :
    List.Perm (insertPos vals p l) (p :: l) := by
  induction l with
  | nil => exact List.Perm.refl _
  | cons q rest ih =>
    by_cases h : vals.getD p 0 < vals.getD q 0
    · simp only [insertPos, if_pos h]
      exact List.Perm.refl _
    · simp only [insertPos, if_neg h]
      exact (ih.cons q).trans (List.Perm.swap p q rest)

theorem foldl_insertPos_perm (vals : List ℚ) (l acc : List Nat) :
    List.Perm (List.foldl (fun acc p => insertPos vals p acc) acc l) (acc ++ l) := by
  induction l generalizing acc with
  | nil => simp
  | cons p t ih =>
    simp only [List.foldl_cons]
    refine (ih (insertPos vals p acc)).trans ?_
    refine ((insertPos_perm vals p acc).append_right t).trans ?_
    simp only [List.cons_append]
    exact List.perm_middle.symm

theorem argsort_perm (vals : List ℚ) :
    List.Perm (argsort vals) (List.range vals.length) := by
  simpa using foldl_insertPos_perm vals (List.range vals.length) []

theorem pickFirst_some (idxes sel : List Nat) (ps : List Nat)
    (h : ∃ p ∈ ps, idxes.getD p 0 ∉ sel) :
    ∃ pos, pickFirst idxes sel ps = some pos ∧ pos ∈ ps ∧ idxes.getD pos 0 ∉ sel := by
  induction ps with
  | nil => simp at h
  | cons p rest ih =>
    by_cases hmem : idxes.getD p 0 ∈ sel
    · obtain ⟨p', hp', hfresh⟩ := h
      have hpr : p' ∈ rest := by
        rcases List.mem_cons.mp hp' with hpe | hpr
        · exact absurd hmem (hpe ▸ hfresh)
        · exact hpr
      obtain ⟨pos, h1, h2, h3⟩ := ih ⟨p', hpr, hfresh⟩
      refine ⟨pos, ?_, List.mem_cons_of_mem _ h2, h3⟩
      simp only [pickFirst, if_pos hmem]
      exact h1
    · refine ⟨p, ?_, List.mem_cons_self _ _, hmem⟩
      simp only [pickFirst, if_neg hmem]

theorem herd_step_some (κ : NumKernel) (cm : List ℚ) (features : List (List ℚ))
    (idxes : List Nat) (i : Nat) (st : HerdState) (pos : Nat)
    (h : pickFirst idxes st.selected
        (argsort (herd_distances κ cm features st.meanSum i)) = some pos) :
    herd_step κ cm features idxes i st
      = ⟨st.selected ++ [idxes.getD pos 0], addVec st.meanSum (features.getD pos [])⟩ := by
  rw [herd_step, h]

theorem herd_step_none (κ : NumKernel) (cm : List ℚ) (features : List (List ℚ))
    (idxes : List Nat) (i : Nat) (st : HerdState)
    (h : pickFirst idxes st.selected
        (argsort (herd_distances κ cm features st.meanSum i)) = none) :
    herd_step κ cm features idxes i st = st := by
  rw [herd_step, h]

theorem herd_step_adds (κ : NumKernel) (cm : List ℚ) (features : List (List ℚ))
    (idxes : List Nat) (i : Nat) (st : HerdState)
    (hnd : idxes.Nodup) (hlen : features.length = idxes.length)
    (hsnd : st.selected.Nodup) (hsub : st.selected ⊆ idxes)
    (hlt : st.selected.length < idxes.length) :
    (herd_step κ cm features idxes i st).selected.length = st.selected.length + 1 ∧
    (herd_step κ cm features idxes i st).selected.Nodup ∧
    (herd_step κ cm features idxes i st).selected ⊆ idxes := by
  have hfresh : ∃ x ∈ idxes, x ∉ st.selected := by
    by_contra hall
    push_neg at hall
    have hsub2 : idxes ⊆ st.selected := fun x hx => hall x hx
    have := (List.subperm_of_subset hnd hsub2).length_le
    omega
  obtain ⟨x, hxmem, hxfresh⟩ := hfresh
  obtain ⟨j, hj, hje⟩ := List.mem_iff_getElem.mp hxmem
  have hjd : idxes.getD j 0 = x := by rw [List.getD_eq_getElem idxes 0 hj]; exact hje
  have hjorder : j ∈ argsort (herd_distances κ cm features st.meanSum i) := by
    apply (argsort_perm _).mem_iff.mpr
    rw [herd_distances_length, hlen]
    exact List.mem_range.mpr hj
  obtain ⟨pos, hpick, hposmem, hposfresh⟩ :=
    pickFirst_some idxes st.selected _ ⟨j, hjorder, hjd ▸ hxfresh⟩
  have hposlt : pos < idxes.length := by
    have := (argsort_perm _).mem_iff.mp hposmem
    rw [herd_distances_length, hlen] at this
    exact List.mem_range.mp this
  have hposin : idxes.getD pos 0 ∈ idxes := by
    rw [List.getD_eq_getElem idxes 0 hposlt]
    exact List.getElem_mem hposlt
  rw [herd_step_some κ cm features idxes i st pos hpick]
  refine ⟨by simp, ?_, ?_⟩
  · rw [List.nodup_append]
    refine ⟨hsnd, List.nodup_singleton _, ?_⟩
    intro y hy hy'
    simp only [List.mem_singleton] at hy'
    exact hposfresh (hy' ▸ hy)
  · intro y hy
    simp only [List.mem_append, List.mem_singleton] at hy
    rcases hy with hy | hy
    · exact hsub hy
    · exact hy ▸ hposin

theorem herd_iter_spec (κ : NumKernel) (d : Nat) (cm : List ℚ) (features : List (List ℚ))
    (idxes : List Nat) (hnd : idxes.Nodup) (hlen : features.length = idxes.length) :
    ∀ T, T ≤ idxes.length →
      (List.foldl (fun st i => herd_step κ cm features idxes i st)
          ⟨[], List.replicate d 0⟩ (List.range T)).selected.length = T ∧
      (List.foldl (fun st i => herd_step κ cm features idxes i st)
          ⟨[], List.replicate d 0⟩ (List.range T)).selected.Nodup ∧
      (List.foldl (fun st i => herd_step κ cm features idxes i st)
          ⟨[], List.replicate d 0⟩ (List.range T)).selected ⊆ idxes := by
  intro T
  induction T with
  | zero => intro h; refine ⟨rfl, List.nodup_nil, by simp⟩
  | succ t ih =>
    intro h
    obtain ⟨ih1, ih2, ih3⟩ := ih (Nat.le_of_succ_le h)
    rw [List.range_succ]
    simp only [List.foldl_append, List.foldl_cons, List.foldl_nil]
    have := herd_step_adds κ cm features idxes t _ hnd hlen ih2 ih3 (by omega)
    exact ⟨by rw [this.1, ih1], this.2.1, this.2.2⟩

/-- Claim C9 (confirmed): herding over a pool of distinct identifiers with
quota `m` selects exactly `min m n` identifiers, without duplicates, all
drawn from the pool. -/
theorem C9_herding_selection (κ : NumKernel) (d m : Nat) (features : List (List ℚ))
    (idxes : List Nat) (hnd : idxes.Nodup) (hlen : features.length = idxes.length) :
    (build_class_examplars κ d m features idxes).selected.length = min m idxes.length ∧
    (build_class_examplars κ d m features idxes).selected.Nodup ∧
    (build_class_examplars κ d m features idxes).selected ⊆ idxes := by
  have h := herd_iter_spec κ d (normalizeVec κ (colMean features d)) features idxes hnd hlen
    (min m features.length) (hlen ▸ min_le_right m features.length)
  rw [build_class_examplars, herd_loop, hlen] at *
  exact h

/-- Witness for C9 at a concrete input. -/
theorem C9_witness :
    (build_class_examplars qKernel 1 2 [[0], [1], [2]] [7, 8, 9]).selected.length = min 2 3 ∧
    (build_class_examplars qKernel 1 2 [[0], [1], [2]] [7, 8, 9]).selected.Nodup :=
  ⟨(C9_herding_selection qKernel 1 2 [[0], [1], [2]] [7, 8, 9] (by decide) (by decide)).1,
   (C9_herding_selection qKernel 1 2 [[0], [1], [2]] [7, 8, 9] (by decide) (by decide)).2.1⟩

theorem herd_step_le (κ : NumKernel) (cm : List ℚ) (features : List (List ℚ))
    (idxes : List Nat) (i : Nat) (st : HerdState) :
    (herd_step κ cm features idxes i st).selected.length ≤ st.selected.length + 1 := by
  rw [herd_step]
  cases h : pickFirst idxes st.selected (argsort (herd_distances κ cm features st.meanSum i)) with
  | some pos => simp
  | none => simp

theorem herd_foldl_le (κ : NumKernel) (cm : List ℚ) (features : List (List ℚ))
    (idxes : List Nat) (l : List Nat) (st : HerdState) :
    (List.foldl (fun st i => herd_step κ cm features idxes i st) st l).selected.length
      ≤ st.selected.length + l.length := by
  induction l generalizing st with
  | nil => simp
  | cons i t ih =>
    calc (List.foldl (fun st i => herd_step κ cm features idxes i st)
            (herd_step κ cm features idxes i st) t).selected.length
        ≤ (herd_step κ cm features idxes i st).selected.length + t.length := ih _
      _ ≤ st.selected.length + 1 + t.length := by
          have := herd_step_le κ cm features idxes i st
          omega
      _ = st.selected.length + (t.length + 1) := by omega
      _ = st.selected.length + (i :: t).length := by simp

theorem build_class_selected_le (κ : NumKernel) (d m : Nat) (features : List (List ℚ))
    (idxes : List Nat) :
    (build_class_examplars κ d m features idxes).selected.length ≤ m := by
  have h := herd_foldl_le κ (normalizeVec κ (colMean features d)) features idxes
    (List.range (min m features.length)) ⟨[], List.replicate d 0⟩
  simp only [List.length_range, List.length_nil] at h
  calc (build_class_examplars κ d m features idxes).selected.length
      ≤ 0 + min m features.length := h
    _ ≤ m := by omega

theorem sum_len_le (ls : List (List Nat)) (m : Nat) (h : ∀ l ∈ ls, l.length ≤ m) :
    total_examplars ls ≤ ls.length * m := by
  induction ls with
  | nil => simp [total_examplars]
  | cons l t ih =>
    have h1 := h l (List.mem_cons_self _ _)
    have h2 := ih fun x hx => h x (List.mem_cons_of_mem _ hx)
    simp only [total_examplars, List.map_cons, List.sum_cons, List.length_cons] at *
    calc l.length + (t.map List.length).sum ≤ m + t.length * m := by omega
      _ = (t.length + 1) * m := by ring

/-- Claim C1 (confirmed): after `after_task` (reduction with quota
`memory_size // n_classes`, then rebuild of the new classes), the total
number of stored exemplar identifiers over all `n_classes` classes is at
most `memory_size`. -/
theorem C1_memory_bound (κ : NumKernel) (d k n_classes : Nat)
    (examplars : List (List Nat)) (pools : List (List (List ℚ) × List Nat))
    (h : examplars.length + pools.length = n_classes) :
    total_examplars (after_task κ d k n_classes examplars pools) ≤ k := by
  have hall : ∀ l ∈ after_task κ d k n_classes examplars pools,
      l.length ≤ quota_m k n_classes := by
    intro l hl
    rw [after_task, List.mem_append] at hl
    rcases hl with hl | hl
    · obtain ⟨x, _, hx⟩ := List.mem_map.mp hl
      rw [← hx]
      exact List.length_take_le _ _
    · obtain ⟨pool, _, hx⟩ := List.mem_map.mp hl
      rw [← hx]
      exact build_class_selected_le κ d _ pool.1 pool.2
  have hlen : (after_task κ d k n_classes examplars pools).length = n_classes := by
    simp [after_task, reduce_examplars, build_examplars, h]
  calc total_examplars (after_task κ d k n_classes examplars pools)
      ≤ (after_task κ d k n_classes examplars pools).length * quota_m k n_classes :=
        sum_len_le _ _ hall
    _ = n_classes * (k / n_classes) := by rw [hlen, quota_m]
    _ ≤ k := by rw [Nat.mul_comm]; exact Nat.div_mul_le_self k n_classes

/-- Witness for C1 at a concrete input. -/
theorem C1_witness :
    total_examplars (after_task qKernel 1 3 2 [[1, 2, 3]] [([[0]], [4])]) ≤ 3 :=
  C1_memory_bound qKernel 1 3 2 [[1, 2, 3]] [([[0]], [4])] (by decide)

theorem herd_distances_replicate (κ : NumKernel) (cm row ms : List ℚ) (n i : Nat) :
    ∃ v, herd_distances κ cm (List.replicate n row) ms i = List.replicate n v := by
  rw [herd_distances]
  simp only [normalizeCols, List.map_replicate]
  exact ⟨_, rfl⟩

theorem getD_replicate_of_lt {α : Type} (v d : α) (p n : Nat) (h : p < n) :
    (List.replicate n v).getD p d = v := by
  rw [List.getD_eq_getElem _ d (by simpa using h), List.getElem_replicate]

theorem insertPos_append_of_le (vals : List ℚ) (p : Nat) (acc : List Nat)
    (h : ∀ q ∈ acc, ¬ vals.getD p 0 < vals.getD q 0) :
    insertPos vals p acc = acc ++ [p] := by
  induction acc with
  | nil => rfl
  | cons q rest ih =>
    have hq := h q (List.mem_cons_self _ _)
    simp only [insertPos, if_neg hq]
    rw [ih fun r hr => h r (List.mem_cons_of_mem _ hr)]
    simp

theorem foldl_insertPos_all (vals : List ℚ) (l : List Nat) :
    ∀ acc : List Nat,
      (∀ p ∈ l, ∀ q ∈ acc ++ l, ¬ vals.getD p 0 < vals.getD q 0) →
      List.foldl (fun acc p => insertPos vals p acc) acc l = acc ++ l := by
  induction l with
  | nil => intro acc _; simp
  | cons p t ih =>
    intro acc h
    simp only [List.foldl_cons]
    have hip : insertPos vals p acc = acc ++ [p] :=
      insertPos_append_of_le vals p acc fun q hq =>
        h p (List.mem_cons_self _ _) q (List.mem_append_left _ hq)
    rw [hip]
    have h' : ∀ p' ∈ t, ∀ q ∈ (acc ++ [p]) ++ t, ¬ vals.getD p' 0 < vals.getD q 0 := by
      intro p' hp' q hq
      apply h p' (List.mem_cons_of_mem _ hp') q
      simp only [List.append_assoc, List.singleton_append] at hq
      exact hq
    rw [ih (acc ++ [p]) h']
    simp

theorem argsort_replicate (n : Nat) (v : ℚ) :
    argsort (List.replicate n v) = List.range n := by
  have h : ∀ p ∈ List.range n, ∀ q ∈ ([] : List Nat) ++ List.range n,
      ¬ (List.replicate n v).getD p 0 < (List.replicate n v).getD q 0 := by
    intro p hp q hq
    rw [List.nil_append] at hq
    rw [getD_replicate_of_lt v 0 p n (List.mem_range.mp hp),
        getD_replicate_of_lt v 0 q n (List.mem_range.mp hq)]
    exact lt_irrefl v
  rw [argsort, List.length_replicate, foldl_insertPos_all _ _ _ h, List.nil_append]

theorem nodup_getD_not_mem_take (idxes : List Nat) (t : Nat)
    (hnd : idxes.Nodup) (ht : t < idxes.length) :
    idxes.getD t 0 ∉ idxes.take t := by
  intro hmem
  obtain ⟨j, hj, hje⟩ := List.mem_iff_getElem.mp hmem
  have hjt : j < t := by
    have h2 := hj
    rw [List.length_take] at h2
    omega
  have hjlen : j < idxes.length := lt_trans hjt ht
  have heq : idxes[j] = idxes[t] := by
    have h1 : (idxes.take t)[j] = idxes[j] := by
      have h3 := List.getElem?_take_of_lt (l := idxes) (n := t) (m := j) hjt
      rw [List.getElem?_eq_getElem hj, List.getElem?_eq_getElem hjlen] at h3
      exact Option.some_injective _ h3
    rw [h1] at hje
    rw [hje, List.getD_eq_getElem idxes 0 ht]
  have := (List.Nodup.getElem_inj_iff hnd).mp heq
  omega

theorem pickFirst_append_skip (idxes sel : List Nat) (ps qs : List Nat)
    (h : ∀ p ∈ ps, idxes.getD p 0 ∈ sel) :
    pickFirst idxes sel (ps ++ qs) = pickFirst idxes sel qs := by
  induction ps with
  | nil => simp
  | cons p rest ih =>
    simp only [List.cons_append, pickFirst, if_pos (h p (List.mem_cons_self _ _))]
    exact ih fun r hr => h r (List.mem_cons_of_mem _ hr)

theorem pickFirst_take_range (idxes : List Nat) (t n : Nat)
    (hnd : idxes.Nodup) (hlen : idxes.length = n) (ht : t < n) :
    pickFirst idxes (idxes.take t) (List.range n) = some t := by
  have hsplit : List.range n = List.range t ++ (List.range (n - t)).map (t + ·) := by
    rw [← List.range_add]
    congr 1
    omega
  rw [hsplit]
  rw [pickFirst_append_skip]
  · have hnt : n - t = (n - t - 1) + 1 := by omega
    rw [hnt, List.range_succ_eq_map]
    simp only [List.map_cons, Nat.add_zero]
    have hfresh : idxes.getD t 0 ∉ idxes.take t :=
      nodup_getD_not_mem_take idxes t hnd (by omega)
    simp only [pickFirst, if_neg hfresh]
  · intro p hp
    have hpt : p < t := List.mem_range.mp hp
    have hplen : p < idxes.length := by omega
    rw [List.getD_eq_getElem idxes 0 hplen]
    apply List.mem_iff_getElem?.mpr
    refine ⟨p, ?_⟩
    rw [List.getElem?_take_of_lt hpt, List.getElem?_eq_getElem hplen]

theorem herd_step_tie (κ : NumKernel) (cm row : List ℚ) (idxes : List Nat)
    (n i t : Nat) (ms : List ℚ)
    (hnd : idxes.Nodup) (hlen : idxes.length = n) (ht : t < n) :
    herd_step κ cm (List.replicate n row) idxes i ⟨idxes.take t, ms⟩
      = ⟨idxes.take (t + 1), addVec ms row⟩ := by
  obtain ⟨v, hv⟩ := herd_distances_replicate κ cm row ms n i
  have hpick : pickFirst idxes (idxes.take t)
      (argsort (herd_distances κ cm (List.replicate n row) ms i)) = some t := by
    rw [hv, argsort_replicate]
    exact pickFirst_take_range idxes t n hnd hlen ht
  rw [herd_step_some κ cm (List.replicate n row) idxes i ⟨idxes.take t, ms⟩ t hpick]
  have htlen : t < idxes.length := by omega
  congr 1
  · rw [List.take_succ, List.getElem?_eq_getElem htlen,
      List.getD_eq_getElem idxes 0 htlen]
    rfl
  · rw [getD_replicate_of_lt row [] t n ht]

theorem herd_loop_tie_aux (κ : NumKernel) (cm row : List ℚ) (idxes : List Nat) (n : Nat)
    (hnd : idxes.Nodup) (hlen : idxes.length = n) :
    ∀ T, T ≤ n → ∀ d : Nat, ∃ ms,
      List.foldl (fun st i => herd_step κ cm (List.replicate n row) idxes i st)
        ⟨[], List.replicate d 0⟩ (List.range T) = ⟨idxes.take T, ms⟩ := by
  intro T
  induction T with
  | zero => intro _ d; exact ⟨List.replicate d 0, by simp⟩
  | succ t ih =>
    intro h d
    obtain ⟨ms, hms⟩ := ih (by omega) d
    refine ⟨addVec ms row, ?_⟩
    rw [List.range_succ]
    simp only [List.foldl_append, List.foldl_cons, List.foldl_nil]
    rw [hms, herd_step_tie κ cm row idxes n t t ms hnd hlen (by omega)]

/-- Claim C4 (counterexample): two candidates with identical embeddings
(hence at equal distance at every herding iteration) and identifier pool
`[5, 2]`: the selected exemplar is `5`, the earliest pool position, not
the lowest identifier `2`. -/
theorem C4_counterexample :
    (build_class_examplars qKernel 1 1 [[1], [1]] [5, 2]).selected = [5] ∧
    (build_class_examplars qKernel 1 1 [[1], [1]] [5, 2]).selected ≠ [2] := by
  have heq : (build_class_examplars qKernel 1 1 [[1], [1]] [5, 2]).selected
      = ([5, 2] : List Nat).take (min 1 2) := by
    have h2 : ([[1], [1]] : List (List ℚ)) = List.replicate 2 [1] := rfl
    rw [h2, build_class_examplars, herd_loop, List.length_replicate]
    obtain ⟨ms, hms⟩ := herd_loop_tie_aux qKernel
      (normalizeVec qKernel (colMean (List.replicate 2 [1]) 1)) [1] [5, 2] 2
      (by decide) (by decide) (min 1 2) (by decide) 1
    rw [hms]
  rw [heq]
  exact ⟨rfl, by decide⟩

/-- Claim C4 (amended): herding selection is a pure function of
(candidate embeddings, identifier pool, quota), so repeated runs coincide;
when all candidates are at equal distance — equal embedding rows — the
selection takes candidates in pool-iteration order (earliest position
first), not by lowest identifier. -/
theorem C4_tiebreak (κ : NumKernel) (d m n : Nat) (row : List ℚ) (idxes : List Nat)
    (hnd : idxes.Nodup) (hlen : idxes.length = n) :
    (∀ features pool, build_class_examplars κ d m features pool
        = build_class_examplars κ d m features pool) ∧
    (build_class_examplars κ d m (List.replicate n row) idxes).selected
      = idxes.take (min m n) := by
  refine ⟨fun _ _ => rfl, ?_⟩
  rw [build_class_examplars, herd_loop, List.length_replicate]
  obtain ⟨ms, hms⟩ := herd_loop_tie_aux κ
    (normalizeVec κ (colMean (List.replicate n row) d)) row idxes n hnd hlen
    (min m n) (min_le_right m n) d
  rw [hms]

/-- Witness for the amended C4 at a concrete input. -/
theorem C4_witness :
    (build_class_examplars qKernel 1 2 (List.replicate 3 [2]) [3, 4, 5]).selected
      = ([3, 4, 5] : List Nat).take (min 2 3) :=
  (C4_tiebreak qKernel 1 2 3 [2] [3, 4, 5] (by decide) (by decide)).2

theorem herd_foldl_mono (κ : NumKernel) (cm : List ℚ) (features : List (List ℚ))
    (idxes : List Nat) (l : List Nat) :
    ∀ st : HerdState, st.selected.length
      ≤ (List.foldl (fun st i => herd_step κ cm features idxes i st) st l).selected.length := by
  induction l with
  | nil => intro st; simp
  | cons i t ih =>
    intro st
    simp only [List.foldl_cons]
    refine le_trans ?_ (ih (herd_step κ cm features idxes i st))
    cases h : pickFirst idxes st.selected
        (argsort (herd_distances κ cm features st.meanSum i)) with
    | some pos =>
      rw [herd_step_some κ cm features idxes i st pos h]
      simp
    | none =>
      rw [herd_step_none κ cm features idxes i st h]

theorem herd_step_from_empty (κ : NumKernel) (cm : List ℚ) (features : List (List ℚ))
    (idxes : List Nat) (i : Nat) (ms : List ℚ) (hf : features ≠ []) :
    1 ≤ (herd_step κ cm features idxes i ⟨[], ms⟩).selected.length := by
  have horder : argsort (herd_distances κ cm features ms i) ≠ [] := by
    intro h
    have hperm := argsort_perm (herd_distances κ cm features ms i)
    rw [h] at hperm
    have hlen := hperm.length_eq
    rw [List.length_range, herd_distances_length] at hlen
    exact hf (List.length_eq_zero.mp hlen.symm)
  obtain ⟨p, ps, hps⟩ := List.exists_cons_of_ne_nil horder
  have hpick : pickFirst idxes ([] : List Nat)
      (argsort (herd_distances κ cm features ms i)) = some p := by
    rw [hps]
    simp [pickFirst]
  rw [herd_step_some κ cm features idxes i ⟨[], ms⟩ p hpick]
  simp

/-- Claim C10 (confirmed): with a zero per-class quota
(`memory_size // n_classes = 0`) the herding loop selects nothing and the
stored raw class mean is the all-NaN vector (`zeros(d) / 0`), with no
error raised; with a positive quota and a non-empty candidate pool every
entry of the raw class mean is finite. -/
theorem C10_zero_quota (κ : NumKernel) (d k n_classes : Nat)
    (features : List (List ℚ)) (idxes : List Nat) :
    (quota_m k n_classes = 0 →
      (build_class_examplars κ d (quota_m k n_classes) features idxes).selected = [] ∧
      classMeanRaw (build_class_examplars κ d (quota_m k n_classes) features idxes)
        = List.replicate d FVal.nan) ∧
    (0 < quota_m k n_classes → features ≠ [] →
      (classMeanRaw (build_class_examplars κ d (quota_m k n_classes) features idxes)).all
        FVal.isFinite = true) := by
  constructor
  · intro h0
    rw [h0]
    have hempty : build_class_examplars κ d 0 features idxes
        = ⟨[], List.replicate d 0⟩ := by
      rw [build_class_examplars, herd_loop]
      simp [Nat.zero_min]
    rw [hempty]
    exact ⟨rfl, by simp [classMeanRaw, List.map_replicate]⟩
  · intro hm hf
    have hfpos : 0 < features.length := List.length_pos.mpr hf
    have hTpos : 0 < min (quota_m k n_classes) features.length := lt_min hm hfpos
    obtain ⟨T', hT'⟩ : ∃ T', min (quota_m k n_classes) features.length = T' + 1 :=
      ⟨min (quota_m k n_classes) features.length - 1, by omega⟩
    have hsel : 1 ≤ (build_class_examplars κ d (quota_m k n_classes)
        features idxes).selected.length := by
      rw [build_class_examplars, herd_loop, hT', List.range_succ_eq_map]
      simp only [List.foldl_cons]
      refine le_trans ?_ (herd_foldl_mono κ _ features idxes _ _)
      exact herd_step_from_empty κ _ features idxes 0 (List.replicate d 0) hf
    apply List.all_eq_true.mpr
    intro e he
    obtain ⟨q, _, he'⟩ := List.mem_map.mp he
    rw [← he']
    rw [if_neg (by omega)]
    rfl

/-- Witness for C10 at concrete inputs (zero quota, then positive quota). -/
theorem C10_witness :
    (build_class_examplars qKernel 1 (quota_m 0 1) [[1]] [3]).selected = [] ∧
    classMeanRaw (build_class_examplars qKernel 1 (quota_m 0 1) [[1]] [3])
      = List.replicate 1 FVal.nan ∧
    (classMeanRaw (build_class_examplars qKernel 1 (quota_m 2 1) [[1]] [3])).all
      FVal.isFinite = true :=
  ⟨((C10_zero_quota qKernel 1 0 1 [[1]] [3]).1 (by decide)).1,
   ((C10_zero_quota qKernel 1 0 1 [[1]] [3]).1 (by decide)).2,
   (C10_zero_quota qKernel 1 2 1 [[1]] [3]).2 (by decide) (by simp)⟩

end ICarl
